import Mathlib

/-!
Verification of the key-material subsystem of `milagro_bls` (`src/keys.rs`).

The code under `src/` is the authority for everything it contains:
`SecretKey::{random, from_bytes, as_bytes}`, `PublicKey::{from_secret_key,
new_from_raw, as_bytes, as_uncompressed_bytes, from_uncompressed_bytes}`,
`Keypair::random`, and the trait implementations on those types.  Byte
strings are shallowly embedded as `List Nat` (each entry a byte value),
machine integers as `Nat`, and fallible operations return `Except`.

The repository delegates big-integer and elliptic-curve arithmetic to the
external `amcl` crate (BLS12-381 instantiation), and the `G1Point`,
`DecodeError` and RNG-seeding helpers live in repository modules that are
not part of `src/`; those collaborators are modelled from the spec, each
with a doc comment saying so.
-/

/-- The required number of bytes for a `SecretKey` (`SECRET_KEY_BYTES` in
`keys.rs`). -/
def SECRET_KEY_BYTES : Nat := 32

/-- Modelled from the spec: the byte width of the underlying field
(`MODBYTES` of the `amcl` BLS12-381 instantiation, 48 bytes). -/
def MODBYTES : Nat := 48

/-- Modelled from the spec: the curve's prime group order `r`
(`CURVE_ORDER` of the `amcl` BLS12-381 instantiation). -/
def CURVE_ORDER : Nat :=
  0x73eda753299d7d483339d80809a1d80553bda402fffe5bfeffffffff00000001

/-- Modelled from the spec: the prime modulus `p` of the base field of the
BLS12-381 curve, over which G1 points have their coordinates. -/
def FIELD_MODULUS : Nat :=
  0x1a0111ea397fe69a4b1ba7b6434bacd764774b84f38512bf6730d2a0f6b0f6241eabfffeb153ffffb9feffffffffaaab

/-- Modelled from the spec: the constant term of the BLS12-381 short
Weierstrass equation `y^2 = x^3 + 4`. -/
def CURVE_B : Nat := 4

/-- Big-endian interpretation of a byte list as an unsigned integer
(the semantics of `amcl` `Big::frombytes`). -/
def fromBytesBE (l : List Nat) : Nat :=
  l.foldl (fun acc b => 256 * acc + b) 0

/-- Big-endian encoding of an unsigned integer into exactly `n` bytes,
keeping the low `8*n` bits (the semantics of `amcl` `Big::tobytes` into an
`n`-byte buffer). -/
def toBytesBE : Nat → Nat → List Nat
  | 0, _ => []
  | n + 1, x => toBytesBE n (x / 256) ++ [x % 256]

/-- Modelled from the spec: the shared decode-error enumeration
(`IncorrectSize`, `InvalidSecretKeyRange`, `BadPoint`) surfaced to callers
(`errors.rs` is not part of `src/`). -/
inductive DecodeError where
  | IncorrectSize : DecodeError
  | InvalidSecretKeyRange : DecodeError
  | BadPoint : DecodeError
deriving DecidableEq

/-- A BLS secret key: wraps the scalar `x` (an `amcl` `Big`, embedded as a
`Nat`).  Mirrors `struct SecretKey { x: Big }` in `keys.rs`. -/
structure SecretKey where
  x : Nat
deriving DecidableEq

/-- Modelled from the spec: the big-integer primitive's uniform random
sampling below a bound (`Big::randomnum` in `amcl`).  The randomness source
is embedded as a byte stream `Nat → Nat`; the sampler accumulates twice the
bound's bit width of entropy (512 bits here) and reduces modulo the bound,
so the result is always strictly below the bound. -/
def Big.randomnum (q : Nat) (rng : Nat → Nat) : Nat :=
  fromBytesBE (List.map rng (List.range 64)) % q

/-- `SecretKey::random` from `keys.rs`: draws a scalar below `CURVE_ORDER`
from the seeded PRNG. -/
def SecretKey.random (rng : Nat → Nat) : SecretKey :=
  { x := Big.randomnum CURVE_ORDER rng }

/-- `SecretKey::from_bytes` from `keys.rs`: requires exactly 32 bytes,
left-pads to `MODBYTES`, decodes big-endian, and rejects values not
strictly below the group order. -/
def SecretKey.from_bytes (input : List Nat) : Except DecodeError SecretKey :=
  if input.length ≠ SECRET_KEY_BYTES then
    .error .IncorrectSize
  else if CURVE_ORDER ≤ fromBytesBE (List.replicate (MODBYTES - input.length) 0 ++ input) then
    .error .InvalidSecretKeyRange
  else
    .ok { x := fromBytesBE (List.replicate (MODBYTES - input.length) 0 ++ input) }

/-- `SecretKey::as_bytes` from `keys.rs`: encodes the scalar into a
`MODBYTES` buffer and keeps the trailing 32 bytes. -/
def SecretKey.as_bytes (sk : SecretKey) : List Nat :=
  (toBytesBE MODBYTES sk.x).drop (MODBYTES - SECRET_KEY_BYTES)

/-- `SecretKey::as_raw` from `keys.rs`: exposes the scalar. -/
def SecretKey.as_raw (sk : SecretKey) : Nat := sk.x

/-- Modelled from the spec: `amcl` `Big::tostring` renders the scalar as
`MODBYTES * 2` hexadecimal digits; embedded as the list of 96 nibble
values, most significant first. -/
def Big.tostring (x : Nat) : List Nat :=
  (toBytesBE MODBYTES x).flatMap (fun b => [b / 16, b % 16])

/-- The `std`-feature `Debug` implementation for `SecretKey` in `keys.rs`:
writes `self.x.tostring()` to the formatter. -/
def SecretKey.debugOutput (sk : SecretKey) : List Nat :=
  Big.tostring sk.x

/-- The `PartialEq` implementation for `SecretKey` in `keys.rs`: equality
of the 32-byte canonical exports. -/
def SecretKey.beq (a b : SecretKey) : Bool :=
  a.as_bytes == b.as_bytes

/-- Modelled from the spec: an `amcl` `GroupG1` point (an element of G1),
either the identity element or a finite point with affine coordinates in
the base field. -/
inductive GroupG1 where
  | inf : GroupG1
  | pt (x y : Nat) : GroupG1
deriving DecidableEq

/-- Modelled from the spec: the on-curve test of the group-arithmetic
library, `y^2 = x^3 + 4` over the base field. -/
def onCurve (x y : Nat) : Bool :=
  y * y % FIELD_MODULUS == (x * x * x + CURVE_B) % FIELD_MODULUS

/-- Modelled from the spec: `GroupG1::new()` in `amcl` produces the
identity element. -/
def GroupG1.new : GroupG1 := .inf

/-- Modelled from the spec: `GroupG1::new_bigs(x, y)` in `amcl` reduces
the two coordinates into the base field, and yields the finite point when
the curve equation holds and the identity element otherwise. -/
def GroupG1.new_bigs (x y : Nat) : GroupG1 :=
  if onCurve (x % FIELD_MODULUS) (y % FIELD_MODULUS) then
    .pt (x % FIELD_MODULUS) (y % FIELD_MODULUS)
  else
    .inf

/-- Modelled from the spec: the identity test of the external point
representation. -/
def GroupG1.is_infinity : GroupG1 → Bool
  | .inf => true
  | .pt _ _ => false

/-- Modulus-`FIELD_MODULUS` subtraction on residues, used by the modelled
group law. -/
def subP (a b : Nat) : Nat :=
  (a + (FIELD_MODULUS - b % FIELD_MODULUS)) % FIELD_MODULUS

/-- Fast modular exponentiation, used by the modelled group law for field
inversion. -/
def powMod (m b : Nat) : Nat → Nat
  | 0 => 1 % m
  | e + 1 =>
    let e1 := e + 1
    let r := powMod m (b * b % m) (e1 / 2)
    if e1 % 2 = 1 then r * b % m else r
decreasing_by exact Nat.div_lt_self (Nat.succ_pos e) (by omega)

/-- Inversion in the base field via Fermat's little theorem, used by the
modelled group law. -/
def modInv (a : Nat) : Nat :=
  powMod FIELD_MODULUS a (FIELD_MODULUS - 2)

/-- Modelled from the spec: the affine chord-and-tangent addition law on
the curve `y^2 = x^3 + 4`, part of the external group-arithmetic
collaborator. -/
def GroupG1.add : GroupG1 → GroupG1 → GroupG1
  | .inf, q => q
  | p, .inf => p
  | .pt x1 y1, .pt x2 y2 =>
    if x1 = x2 then
      if (y1 + y2) % FIELD_MODULUS = 0 then .inf
      else
        let l := 3 * x1 * x1 % FIELD_MODULUS * modInv (2 * y1 % FIELD_MODULUS) % FIELD_MODULUS
        let x3 := subP (l * l) ((x1 + x2) % FIELD_MODULUS)
        .pt x3 (subP (l * subP x1 x3) y1)
    else
      let l := subP y2 y1 * modInv (subP x2 x1) % FIELD_MODULUS
      let x3 := subP (l * l) ((x1 + x2) % FIELD_MODULUS)
      .pt x3 (subP (l * subP x1 x3) y1)

/-- Modelled from the spec: scalar multiplication of a point
(`GroupG1::mul` of the group-arithmetic collaborator), by binary
double-and-add over the modelled addition law. -/
def GroupG1.mul (p : GroupG1) (k : Nat) : GroupG1 :=
  if h : k = 0 then .inf
  else
    let r := GroupG1.mul (GroupG1.add p p) (k / 2)
    if k % 2 = 1 then GroupG1.add r p else r
termination_by k
decreasing_by exact Nat.div_lt_self (Nat.pos_of_ne_zero h) (by omega)

/-- Modelled from the spec: the fixed generator of G1 (`GENERATORG1` in
`amcl_utils`, the standard BLS12-381 G1 generator). -/
def GENERATORG1 : GroupG1 :=
  .pt
    0x17f1d3a73197d7942695638c4fa9ac0fc3688c4f9774b905a14e3a3f171bac586c55e83ff97a1aeffb3af00adb22c6bb
    0x08b3f481e3aaa0f1a09e30ed741d8ae4fcf5e095d5d00af600db18cb2c04b3edd03cc744a2888ae40caa232946c5e7e1

/-- The `G1Point` wrapper of the repository's `g1` module (not part of
`src/`); modelled from the spec as a plain wrapper around the raw group
point. -/
structure G1Point where
  point : GroupG1
deriving DecidableEq

/-- Modelled from the spec: `G1Point::from_raw` wraps a raw group point
with no validation. -/
def G1Point.from_raw (p : GroupG1) : G1Point := { point := p }

/-- Modelled from the spec: `G1Point::is_infinity` delegates to the raw
point's identity test. -/
def G1Point.is_infinity (q : G1Point) : Bool := q.point.is_infinity

/-- Modelled from the spec: `G1Point::getx` returns the X coordinate of
the point as a field residue (zero for the identity). -/
def G1Point.getx (q : G1Point) : Nat :=
  match q.point with
  | .inf => 0
  | .pt x _ => x

/-- Modelled from the spec: `G1Point::gety` returns the Y coordinate of
the point as a field residue (zero for the identity). -/
def G1Point.gety (q : G1Point) : Nat :=
  match q.point with
  | .inf => 0
  | .pt _ y => y

/-- Modelled from the spec: the external compressed-point codec's encoder
(one coordinate plus metadata bits, 48 bytes): flag bit 0x80 marks the
compressed form, 0x40 marks the identity, 0x20 carries the sign of Y;
injective over valid points, with a reserved identity encoding. -/
def G1Point.as_bytes (q : G1Point) : List Nat :=
  match q.point with
  | .inf => 192 :: List.replicate 47 0
  | .pt x y =>
    match toBytesBE 48 x with
    | [] => []
    | b :: rest => (b + 128 + (if FIELD_MODULUS / 2 < y then 32 else 0)) :: rest

/-- A BLS public key: wraps a `G1Point`.  Mirrors
`struct PublicKey { point: G1Point }` in `keys.rs`. -/
structure PublicKey where
  point : G1Point
deriving DecidableEq

/-- `PublicKey::from_secret_key` from `keys.rs`: the generator
scalar-multiplied by the secret scalar, wrapped as a `G1Point`. -/
def PublicKey.from_secret_key (sk : SecretKey) : PublicKey :=
  { point := G1Point.from_raw (GroupG1.mul GENERATORG1 sk.as_raw) }

/-- `PublicKey::new_from_raw` from `keys.rs`: wraps a raw `GroupG1` point
with no validation. -/
def PublicKey.new_from_raw (p : GroupG1) : PublicKey :=
  { point := G1Point.from_raw p }

/-- `PublicKey::as_bytes` from `keys.rs`: delegates to the compressed
codec of `G1Point`. -/
def PublicKey.as_bytes (pk : PublicKey) : List Nat :=
  pk.point.as_bytes

/-- The derived `PartialEq` on `PublicKey` in `keys.rs` compares the
`point` fields; modelled from the spec for the missing `G1Point`
equality: two keys are equal iff their canonical compressed encodings are
equal. -/
def PublicKey.beq (a b : PublicKey) : Bool :=
  a.point.as_bytes == b.point.as_bytes

/-- `PublicKey::as_uncompressed_bytes` from `keys.rs`: 96 zero bytes for
the identity, otherwise the 48-byte big-endian X coordinate followed by
the 48-byte big-endian Y coordinate. -/
def PublicKey.as_uncompressed_bytes (pk : PublicKey) : List Nat :=
  if pk.point.is_infinity then
    List.replicate 96 0
  else
    toBytesBE 48 pk.point.getx ++ toBytesBE 48 pk.point.gety

/-- `PublicKey::from_uncompressed_bytes` from `keys.rs`: requires 96
bytes; all-zero input decodes to the identity; otherwise the two 48-byte
halves are decoded big-endian, a candidate point is constructed, and an
identity candidate (the on-curve check failed) is rejected as
`BadPoint`. -/
def PublicKey.from_uncompressed_bytes (bytes : List Nat) : Except DecodeError PublicKey :=
  if bytes.length ≠ 96 then
    .error .IncorrectSize
  else if bytes.all (fun b => b == 0) then
    .ok (PublicKey.new_from_raw GroupG1.new)
  else if (GroupG1.new_bigs (fromBytesBE (bytes.take 48))
      (fromBytesBE (bytes.drop 48))).is_infinity then
    .error .BadPoint
  else
    .ok (PublicKey.new_from_raw
      (GroupG1.new_bigs (fromBytesBE (bytes.take 48)) (fromBytesBE (bytes.drop 48))))

/-- A BLS keypair.  Mirrors `struct Keypair { sk, pk }` in `keys.rs`. -/
structure Keypair where
  sk : SecretKey
  pk : PublicKey
deriving DecidableEq

/-- `Keypair::random` from `keys.rs`: generates a `SecretKey` and derives
the matching `PublicKey` from it. -/
def Keypair.random (rng : Nat → Nat) : Keypair :=
  let sk := SecretKey.random rng
  let pk := PublicKey.from_secret_key sk
  { sk := sk, pk := pk }

/-- Validity of a raw group point: the identity is valid, and a finite
point is valid when its coordinates are reduced field residues satisfying
the curve equation. -/
def GroupG1.valid : GroupG1 → Prop
  | .inf => True
  | .pt x y => x < FIELD_MODULUS ∧ y < FIELD_MODULUS ∧ onCurve x y = true

instance : DecidablePred GroupG1.valid := by
  intro p
  cases p with
  | inf => exact .isTrue trivial
  | pt x y => exact inferInstanceAs (Decidable (_ ∧ _ ∧ _))

/-- The secret-key test vector of `keys.rs`
(`test_secret_key_serialization_isomorphism`). -/
def skTestVector : List Nat :=
  [78, 252, 122, 126, 32, 0, 75, 89, 252, 31, 42, 130, 254, 88, 6, 90,
   138, 202, 135, 194, 233, 117, 181, 75, 96, 238, 79, 100, 237, 59, 140, 111]

/-- The 96-byte buffer encoding coordinates `(1, 1)`
(`test_public_key_uncompressed_serialization_bad_point` in `keys.rs`). -/
def badPointBytes : List Nat :=
  (List.replicate 47 0 ++ [1]) ++ (List.replicate 47 0 ++ [1])

/-- The public key wrapping the identity element. -/
def infPublicKey : PublicKey := PublicKey.new_from_raw GroupG1.new

/-- The public key wrapping the G1 generator. -/
def genPublicKey : PublicKey := PublicKey.new_from_raw GENERATORG1

/-! ### Byte-codec lemmas -/

/-- Defining equation of `toBytesBE` in the successor case. -/
theorem toBytesBE_succ (n x : Nat) :
    toBytesBE (n + 1) x = toBytesBE n (x / 256) ++ [x % 256] := rfl

/-- `toBytesBE n` always produces exactly `n` bytes. -/
theorem toBytesBE_length (n : Nat) : ∀ x : Nat, (toBytesBE n x).length = n := by
  induction n with
  | zero => intro x; rfl
  | succ n ih =>
    intro x
    rw [toBytesBE_succ]
    simp [ih]

/-- Appending a final byte multiplies the decoded value by 256 and adds
the byte. -/
theorem fromBytesBE_append_singleton (l : List Nat) (b : Nat) :
    fromBytesBE (l ++ [b]) = 256 * fromBytesBE l + b := by
  simp [fromBytesBE, List.foldl_append]

/-- A run of zero bytes decodes to zero. -/
theorem fromBytesBE_replicate_zero (k : Nat) :
    fromBytesBE (List.replicate k 0) = 0 := by
  induction k with
  | zero => rfl
  | succ k ih => simpa [fromBytesBE, List.replicate_succ] using ih

/-- Leading zero bytes do not change the decoded value. -/
theorem fromBytesBE_replicate_zero_append (k : Nat) (l : List Nat) :
    fromBytesBE (List.replicate k 0 ++ l) = fromBytesBE l := by
  have h := fromBytesBE_replicate_zero k
  simp only [fromBytesBE, List.foldl_append] at *
  rw [h]

/-- The decoded value of a list of bytes is below `256 ^ length`. -/
theorem fromBytesBE_lt (l : List Nat) (h : ∀ b ∈ l, b < 256) :
    fromBytesBE l < 256 ^ l.length := by
  induction l using List.reverseRecOn with
  | nil => simp [fromBytesBE]
  | append_singleton l b ih =>
    have hb : b < 256 := h b (by simp)
    have hl : fromBytesBE l < 256 ^ l.length := ih (fun a ha => h a (by simp [ha]))
    rw [fromBytesBE_append_singleton]
    calc 256 * fromBytesBE l + b < 256 * (fromBytesBE l + 1) := by omega
      _ ≤ 256 * 256 ^ l.length := Nat.mul_le_mul_left 256 hl
      _ = 256 ^ (l ++ [b]).length := by
          simp [List.length_append, pow_succ, Nat.mul_comm]

/-- Decoding inverts encoding for values that fit in `n` bytes. -/
theorem fromBytesBE_toBytesBE (n : Nat) :
    ∀ x : Nat, x < 256 ^ n → fromBytesBE (toBytesBE n x) = x := by
  induction n with
  | zero =>
    intro x hx
    simp only [pow_zero, Nat.lt_one_iff] at hx
    subst hx
    rfl
  | succ n ih =>
    intro x hx
    rw [toBytesBE_succ, fromBytesBE_append_singleton]
    have hdiv : x / 256 < 256 ^ n := by
      apply Nat.div_lt_of_lt_mul
      rw [pow_succ, Nat.mul_comm] at hx
      exact hx
    rw [ih _ hdiv]
    omega

/-- Encoding inverts decoding for genuine byte lists. -/
theorem toBytesBE_fromBytesBE (l : List Nat) (h : ∀ b ∈ l, b < 256) :
    toBytesBE l.length (fromBytesBE l) = l := by
  induction l using List.reverseRecOn with
  | nil => rfl
  | append_singleton l b ih =>
    have hb : b < 256 := h b (by simp)
    have hl := ih (fun a ha => h a (by simp [ha]))
    rw [fromBytesBE_append_singleton]
    have hlen : (l ++ [b]).length = l.length + 1 := by simp
    rw [hlen, toBytesBE_succ]
    have hdiv : (256 * fromBytesBE l + b) / 256 = fromBytesBE l := by omega
    have hmod : (256 * fromBytesBE l + b) % 256 = b := by omega
    rw [hdiv, hmod, hl]

/-- A value that fits in `n` bytes gets a zero leading byte in an
`(n+1)`-byte encoding. -/
theorem toBytesBE_succ_of_lt (n : Nat) :
    ∀ x : Nat, x < 256 ^ n → toBytesBE (n + 1) x = 0 :: toBytesBE n x := by
  induction n with
  | zero =>
    intro x hx
    simp only [pow_zero, Nat.lt_one_iff] at hx
    subst hx
    rfl
  | succ n ih =>
    intro x hx
    have hdiv : x / 256 < 256 ^ n := by
      apply Nat.div_lt_of_lt_mul
      rw [pow_succ, Nat.mul_comm] at hx
      exact hx
    rw [toBytesBE_succ (n + 1) x, ih _ hdiv, toBytesBE_succ n x]
    simp

/-- A value that fits in `n` bytes is encoded into `k + n` bytes as `k`
zero bytes followed by its `n`-byte encoding. -/
theorem toBytesBE_add_of_lt (k n x : Nat) (h : x < 256 ^ n) :
    toBytesBE (k + n) x = List.replicate k 0 ++ toBytesBE n x := by
  induction k with
  | zero => simp
  | succ k ih =>
    have hx : x < 256 ^ (k + n) :=
      lt_of_lt_of_le h (Nat.pow_le_pow_right (by omega) (by omega))
    have hstep : k + 1 + n = (k + n) + 1 := by omega
    rw [hstep, toBytesBE_succ_of_lt (k + n) x hx, ih]
    simp [List.replicate_succ]

/-! ### Claim theorems -/

/-- C1: for every 32-byte input `b` whose big-endian value is strictly
below the group order `r`, `SecretKey.from_bytes b` succeeds and
`SecretKey.as_bytes` of the result returns exactly `b`; `as_bytes` is the
exact left-inverse of `from_bytes` on all accepted inputs. -/
theorem secret_key_bytes_roundtrip (b : List Nat) (hlen : b.length = 32)
    (hbytes : ∀ a ∈ b, a < 256) (hr : fromBytesBE b < CURVE_ORDER) :
    ∃ sk : SecretKey, SecretKey.from_bytes b = .ok sk ∧ sk.as_bytes = b := by
  have hpad : fromBytesBE (List.replicate (MODBYTES - b.length) 0 ++ b) = fromBytesBE b :=
    fromBytesBE_replicate_zero_append _ b
  refine ⟨{ x := fromBytesBE b }, ?_, ?_⟩
  · unfold SecretKey.from_bytes
    rw [if_neg (by simp [hlen, SECRET_KEY_BYTES]), hpad, if_neg (not_le.mpr hr)]
  · have hv : fromBytesBE b < 256 ^ 32 := by
      have h := fromBytesBE_lt b hbytes
      rwa [hlen] at h
    show (toBytesBE MODBYTES (fromBytesBE b)).drop (MODBYTES - SECRET_KEY_BYTES) = b
    rw [show MODBYTES = 16 + 32 from rfl, toBytesBE_add_of_lt 16 32 _ hv]
    have hdrop :
        (List.replicate 16 (0 : Nat) ++ toBytesBE 32 (fromBytesBE b)).drop 16 =
          toBytesBE 32 (fromBytesBE b) := by
      have h := List.drop_left (List.replicate 16 (0 : Nat)) (toBytesBE 32 (fromBytesBE b))
      rwa [List.length_replicate] at h
    show (List.replicate 16 (0 : Nat) ++ toBytesBE 32 (fromBytesBE b)).drop 16 = b
    rw [hdrop, ← hlen, toBytesBE_fromBytesBE b hbytes]

/-- C1 witness: the concrete test vector decodes successfully and
re-encodes to the same bytes. -/
theorem secret_key_bytes_roundtrip_witness :
    skTestVector.length = 32 ∧
      (∃ sk : SecretKey,
        SecretKey.from_bytes skTestVector = .ok sk ∧ sk.as_bytes = skTestVector) :=
  ⟨by decide,
   secret_key_bytes_roundtrip skTestVector (by decide) (by decide) (by decide)⟩

/-- C2: `SecretKey.from_bytes` fails with `IncorrectSize` exactly on
inputs whose length is not 32; on 32-byte inputs it fails with
`InvalidSecretKeyRange` exactly when the decoded big-endian value is not
strictly below the group order, and otherwise returns the decoded key; in
particular 32 bytes of `0xFF` are rejected as out of range and 32 zero
bytes succeed with the zero scalar. -/
theorem secret_key_from_bytes_errors :
    (∀ input : List Nat, input.length ≠ 32 →
        SecretKey.from_bytes input = .error .IncorrectSize) ∧
    (∀ input : List Nat, input.length = 32 →
        (SecretKey.from_bytes input = .error .InvalidSecretKeyRange ↔
          CURVE_ORDER ≤ fromBytesBE input)) ∧
    (∀ input : List Nat, input.length = 32 → fromBytesBE input < CURVE_ORDER →
        SecretKey.from_bytes input = .ok { x := fromBytesBE input }) ∧
    SecretKey.from_bytes (List.replicate 32 255) = .error .InvalidSecretKeyRange ∧
    SecretKey.from_bytes (List.replicate 32 0) = .ok { x := 0 } := by
  refine ⟨?_, ?_, ?_, by rfl, by rfl⟩
  · intro input h
    unfold SecretKey.from_bytes
    rw [if_pos (by simp [SECRET_KEY_BYTES]; exact h)]
  · intro input hlen
    have hpad :
        fromBytesBE (List.replicate (MODBYTES - input.length) 0 ++ input) =
          fromBytesBE input :=
      fromBytesBE_replicate_zero_append _ input
    unfold SecretKey.from_bytes
    rw [if_neg (by simp [hlen, SECRET_KEY_BYTES]), hpad]
    by_cases hr : CURVE_ORDER ≤ fromBytesBE input
    · simp [hr]
    · simp [hr]
  · intro input hlen hr
    have hpad :
        fromBytesBE (List.replicate (MODBYTES - input.length) 0 ++ input) =
          fromBytesBE input :=
      fromBytesBE_replicate_zero_append _ input
    unfold SecretKey.from_bytes
    rw [if_neg (by simp [hlen, SECRET_KEY_BYTES]), hpad, if_neg (not_le.mpr hr)]

/-- C2 witness: the universally quantified parts of the claim applied at
the concrete inputs named by the claim. -/
theorem secret_key_from_bytes_errors_witness :
    SecretKey.from_bytes [] = .error .IncorrectSize ∧
    SecretKey.from_bytes (List.replicate 33 1) = .error .IncorrectSize ∧
    (SecretKey.from_bytes (List.replicate 32 255) = .error .InvalidSecretKeyRange ↔
      CURVE_ORDER ≤ fromBytesBE (List.replicate 32 255)) ∧
    SecretKey.from_bytes (List.replicate 32 0) = .ok { x := 0 } :=
  ⟨secret_key_from_bytes_errors.1 [] (by decide),
   secret_key_from_bytes_errors.1 (List.replicate 33 1) (by decide),
   secret_key_from_bytes_errors.2.1 (List.replicate 32 255) (by decide),
   secret_key_from_bytes_errors.2.2.2.2⟩

/-- C3: for every randomness source, the keypair returned by
`Keypair.random` satisfies the consistency invariant: its public component
equals the public key derived from its secret component. -/
theorem keypair_random_consistent (rng : Nat → Nat) :
    (Keypair.random rng).pk = PublicKey.from_secret_key (Keypair.random rng).sk := rfl

/-- C5: `as_uncompressed_bytes` returns exactly 96 bytes; for a
non-identity point they are the 48-byte big-endian X coordinate followed
by the 48-byte big-endian Y coordinate, and for the identity they are 96
zero bytes. -/
theorem as_uncompressed_bytes_format (pk : PublicKey) :
    pk.as_uncompressed_bytes.length = 96 ∧
    (pk.point.is_infinity = true →
        pk.as_uncompressed_bytes = List.replicate 96 0) ∧
    (pk.point.is_infinity = false →
        pk.as_uncompressed_bytes =
          toBytesBE 48 pk.point.getx ++ toBytesBE 48 pk.point.gety) := by
  unfold PublicKey.as_uncompressed_bytes
  by_cases h : pk.point.is_infinity = true
  · rw [if_pos h]
    exact ⟨by simp, fun _ => rfl, fun hf => absurd h (by simp [hf])⟩
  · rw [if_neg h]
    refine ⟨?_, fun ht => absurd ht h, fun _ => rfl⟩
    simp [toBytesBE_length]

/-- C5 witness: the format at the generator key (non-identity) and at the
identity key. -/
theorem as_uncompressed_bytes_format_witness :
    genPublicKey.as_uncompressed_bytes =
        toBytesBE 48 genPublicKey.point.getx ++ toBytesBE 48 genPublicKey.point.gety ∧
    infPublicKey.as_uncompressed_bytes = List.replicate 96 0 :=
  ⟨(as_uncompressed_bytes_format genPublicKey).2.2 rfl,
   (as_uncompressed_bytes_format infPublicKey).2.1 rfl⟩

/-- C7: two public keys compare equal exactly when their canonical
compressed byte encodings are equal. -/
theorem public_key_eq_iff_bytes (a b : PublicKey) :
    PublicKey.beq a b = true ↔ a.as_bytes = b.as_bytes := by
  simp [PublicKey.beq, PublicKey.as_bytes]

/-- C8: every secret key, however constructed (`random` with any
randomness source, or `from_bytes` on any accepted input), stores a scalar
strictly below the group order. -/
theorem secret_key_scalar_in_range :
    (∀ rng : Nat → Nat, (SecretKey.random rng).x < CURVE_ORDER) ∧
    (∀ input : List Nat, ∀ sk : SecretKey,
        SecretKey.from_bytes input = .ok sk → sk.x < CURVE_ORDER) := by
  constructor
  · intro rng
    show Big.randomnum CURVE_ORDER rng < CURVE_ORDER
    exact Nat.mod_lt _ (by decide)
  · intro input sk h
    unfold SecretKey.from_bytes at h
    by_cases hlen : input.length ≠ SECRET_KEY_BYTES
    · rw [if_pos hlen] at h
      simp at h
    · rw [if_neg hlen] at h
      by_cases hr : CURVE_ORDER ≤
          fromBytesBE (List.replicate (MODBYTES - input.length) 0 ++ input)
      · rw [if_pos hr] at h
        simp at h
      · rw [if_neg hr] at h
        injection h with h2
        rw [← h2]
        exact not_le.mp hr

/-- C8 witness: the range invariant at a concrete randomness source and a
concrete accepted input. -/
theorem secret_key_scalar_in_range_witness :
    (SecretKey.random (fun _ => 0)).x < CURVE_ORDER ∧
    ({ x := 0 } : SecretKey).x < CURVE_ORDER :=
  ⟨secret_key_scalar_in_range.1 (fun _ => 0),
   secret_key_scalar_in_range.2 (List.replicate 32 0) { x := 0 } (by rfl)⟩

/-- C10: the `std`-feature `Debug` rendering of a secret key is a
non-constant function of the secret scalar: two distinct validly
constructed secret keys have different renderings, so the formatting
channel does not satisfy noninterference with respect to the secret. -/
theorem debug_output_leaks_secret :
    ∃ b1 b2 : List Nat, ∃ sk1 sk2 : SecretKey,
      SecretKey.from_bytes b1 = .ok sk1 ∧ SecretKey.from_bytes b2 = .ok sk2 ∧
      sk1 ≠ sk2 ∧ sk1.debugOutput ≠ sk2.debugOutput := by
  exact ⟨List.replicate 32 0, List.replicate 31 0 ++ [1], { x := 0 }, { x := 1 },
    by rfl, by rfl, by decide, by decide⟩

/-- C4: for every public key holding a valid G1 point,
`from_uncompressed_bytes` of `as_uncompressed_bytes` succeeds and returns
the same key (hence re-encodes to the identical 96 bytes); the identity
encodes to 96 zero bytes, and 96 zero bytes decode to a key whose point is
the identity. -/
theorem public_key_uncompressed_roundtrip (pk : PublicKey) (h : pk.point.point.valid) :
    PublicKey.from_uncompressed_bytes pk.as_uncompressed_bytes = .ok pk ∧
    infPublicKey.as_uncompressed_bytes = List.replicate 96 0 ∧
    (∃ pk0 : PublicKey, PublicKey.from_uncompressed_bytes (List.replicate 96 0) = .ok pk0 ∧
      pk0.point.is_infinity = true) := by
  refine ⟨?_, rfl, ⟨infPublicKey, rfl, rfl⟩⟩
  obtain ⟨⟨gp⟩⟩ := pk
  cases gp with
  | inf => rfl
  | pt x y =>
    obtain ⟨hx, hy, hcurve⟩ := h
    have hxlt : x < 256 ^ 48 := lt_trans hx (by decide)
    have hylt : y < 256 ^ 48 := lt_trans hy (by decide)
    have henc :
        PublicKey.as_uncompressed_bytes ⟨⟨.pt x y⟩⟩ = toBytesBE 48 x ++ toBytesBE 48 y := rfl
    rw [henc]
    have hlx : (toBytesBE 48 x).length = 48 := toBytesBE_length 48 x
    have hly : (toBytesBE 48 y).length = 48 := toBytesBE_length 48 y
    have hlen : (toBytesBE 48 x ++ toBytesBE 48 y).length = 96 := by
      simp [hlx, hly]
    have hnz : (toBytesBE 48 x ++ toBytesBE 48 y).all (fun b => b == 0) = false := by
      by_contra hcon
      have hall : (toBytesBE 48 x ++ toBytesBE 48 y).all (fun b => b == 0) = true := by
        cases hb : (toBytesBE 48 x ++ toBytesBE 48 y).all (fun b => b == 0) with
        | true => rfl
        | false => exact absurd hb hcon
      rw [List.all_append, Bool.and_eq_true] at hall
      have hallx : ∀ b ∈ toBytesBE 48 x, b = 0 := by
        intro b hb
        simpa using List.all_eq_true.mp hall.1 b hb
      have hally : ∀ b ∈ toBytesBE 48 y, b = 0 := by
        intro b hb
        simpa using List.all_eq_true.mp hall.2 b hb
      have hx0 : x = 0 := by
        have hrt := fromBytesBE_toBytesBE 48 x hxlt
        rw [List.eq_replicate_iff.mpr ⟨hlx, hallx⟩, fromBytesBE_replicate_zero] at hrt
        omega
      have hy0 : y = 0 := by
        have hrt := fromBytesBE_toBytesBE 48 y hylt
        rw [List.eq_replicate_iff.mpr ⟨hly, hally⟩, fromBytesBE_replicate_zero] at hrt
        omega
      rw [hx0, hy0] at hcurve
      exact absurd hcurve (by decide)
    have htake : (toBytesBE 48 x ++ toBytesBE 48 y).take 48 = toBytesBE 48 x := by
      have ht := List.take_left (toBytesBE 48 x) (toBytesBE 48 y)
      rwa [hlx] at ht
    have hdrop : (toBytesBE 48 x ++ toBytesBE 48 y).drop 48 = toBytesBE 48 y := by
      have hd := List.drop_left (toBytesBE 48 x) (toBytesBE 48 y)
      rwa [hlx] at hd
    unfold PublicKey.from_uncompressed_bytes
    rw [if_neg (by simp [hlen]), if_neg (by simp [hnz])]
    rw [htake, hdrop, fromBytesBE_toBytesBE 48 x hxlt, fromBytesBE_toBytesBE 48 y hylt]
    unfold GroupG1.new_bigs
    rw [Nat.mod_eq_of_lt hx, Nat.mod_eq_of_lt hy, if_pos hcurve]
    rfl

/-- C4 witness: the round-trip at the generator key, whose point is a
valid non-identity G1 point. -/
theorem public_key_uncompressed_roundtrip_witness :
    PublicKey.from_uncompressed_bytes genPublicKey.as_uncompressed_bytes = .ok genPublicKey ∧
    infPublicKey.as_uncompressed_bytes = List.replicate 96 0 ∧
    (∃ pk0 : PublicKey, PublicKey.from_uncompressed_bytes (List.replicate 96 0) = .ok pk0 ∧
      pk0.point.is_infinity = true) :=
  public_key_uncompressed_roundtrip genPublicKey (by decide)

/-- C6: on a 96-byte input that is not all zeros,
`from_uncompressed_bytes` fails with `BadPoint` exactly when the two
48-byte big-endian coordinates, reduced into the base field, do not
satisfy the curve equation (equivalently, when the constructed candidate
point is the identity). -/
theorem from_uncompressed_bad_point (bytes : List Nat) (hlen : bytes.length = 96)
    (hnz : bytes.all (fun b => b == 0) = false) :
    PublicKey.from_uncompressed_bytes bytes = .error .BadPoint ↔
      onCurve (fromBytesBE (bytes.take 48) % FIELD_MODULUS)
        (fromBytesBE (bytes.drop 48) % FIELD_MODULUS) = false := by
  unfold PublicKey.from_uncompressed_bytes
  rw [if_neg (by simp [hlen]), if_neg (by simp [hnz])]
  unfold GroupG1.new_bigs
  by_cases hc : onCurve (fromBytesBE (bytes.take 48) % FIELD_MODULUS)
      (fromBytesBE (bytes.drop 48) % FIELD_MODULUS) = true
  · rw [if_pos hc]
    simp [GroupG1.is_infinity, hc]
  · have hcf : onCurve (fromBytesBE (bytes.take 48) % FIELD_MODULUS)
        (fromBytesBE (bytes.drop 48) % FIELD_MODULUS) = false := by
      cases hb : onCurve (fromBytesBE (bytes.take 48) % FIELD_MODULUS)
          (fromBytesBE (bytes.drop 48) % FIELD_MODULUS) with
      | true => exact absurd hb hc
      | false => rfl
    rw [if_neg hc]
    simp [GroupG1.is_infinity, hcf]

/-- C6 witness: the 96-byte buffer encoding coordinates `(1, 1)` fails
with `BadPoint`. -/
theorem from_uncompressed_bad_point_witness :
    badPointBytes.length = 96 ∧
    PublicKey.from_uncompressed_bytes badPointBytes = .error .BadPoint :=
  ⟨by decide,
   (from_uncompressed_bad_point badPointBytes (by decide) (by decide)).mpr (by decide)⟩
